import Mathlib

/-!
Verification of the rexpr expression-evaluator front end

Shallow embedding of the three-stage pipeline of the rexpr repository:
`src/tokenizer.rs` (lexer), `src/parser.rs` (recursive-descent parser) and
`src/eval.rs` (tree-walking evaluator), composed per line as in `src/main.rs`
(tokenize, then parse, then eval).

Modelling conventions:

* `u32` counters (`line`, `col`) are modelled as `Nat`; no input in scope can
  overflow 32 bits, and the source never wraps them.
* Rust panics are modelled as an explicit outcome (`PRes.fault`,
  `ParseOutcome.fault`, `none` for the evaluator, `RunResult.fault`).
  Three panic sites exist in the source: `n.parse::<i32>().unwrap()` in
  `parse_factor` (out-of-range or malformed literal), the `todo!()` arm of
  `impl Display for Token` reached when `parse_factor` formats an
  "unexpected token" message for `Token::Space`, and integer division in
  `eval` (divisor zero, or `i32::MIN / -1`).
* `i32` values are modelled as `Int`.  Overflow of `+`, `-`, `*` and unary
  negation is modelled as exact integer arithmetic: the source relies on
  Rust's build-profile-dependent behaviour there and the specification
  (section 9) leaves the overflow policy unspecified.  Division models both
  unconditional Rust division panics (divisor zero, `i32::MIN / -1`).
* The `Token` type below is the union of the variants declared in
  `tokenizer.rs` (`Space`, `Number`, `Operator`, `LParent`, `RParent`) and
  the variants the parser in `parser.rs` pattern-matches against
  (`Plus`, `Minus`, `Mul`, `Div`, `LParen`, `RParen`).  The two files of the
  repository disagree: the tokenizer constructs only the first five
  (spaces become `Token::Space`; `+ - * / %` all become
  `Token::Operator(c.to_string())`), while the parser consumes `Number`
  plus only the last six.  Carrying all eleven constructors lets every
  `match` of both files be translated arm for arm.  Consequences of the
  mismatch (the parser can never see the operator variants it matches) are
  proved below, not assumed.
* The `Peekable` iterators are modelled by explicit lists; the parser's
  iterator position is modelled by the count of consumed tokens.
-/

/-- `Token` from `src/tokenizer.rs` (first five constructors), extended with
the six variants `src/parser.rs` matches against (see module comment). -/
inductive Token where
  | Space : Token
  | Number : String → Token
  | Operator : String → Token
  | LParent : Token
  | RParent : Token
  | Plus : Token
  | Minus : Token
  | Mul : Token
  | Div : Token
  | LParen : Token
  | RParen : Token
deriving DecidableEq

/-- `TokenizerError` from `src/tokenizer.rs`. -/
structure TokenizerError where
  message : String
  line : Nat
  col : Nat
deriving DecidableEq

/-- The character class consumed by the `'0'..='9'` arm of `next_token`. -/
def isDigitChar (c : Char) : Bool :=
  '0' ≤ c && c ≤ '9'

/-- `Tokenizer::next_token`: peek at the head character and produce one token
together with the remaining characters, the end-of-input signal, or a
`TokenizerError` carrying the current position.  Mirrors the `match` in
`src/tokenizer.rs` lines 77-104: space, `(`, `)`, the five operator
characters `+ - * / %`, a maximal digit run, otherwise the
"Unknow symbol" error (typo as in the source). -/
def nextToken (cs : List Char) (line col : Nat) :
    Except TokenizerError (Option (Token × List Char)) :=
  match cs with
  | [] => .ok none
  | c :: rest =>
    if c = ' ' then .ok (some (Token.Space, rest))
    else if c = '(' then .ok (some (Token.LParent, rest))
    else if c = ')' then .ok (some (Token.RParent, rest))
    else if c = '+' ∨ c = '-' ∨ c = '*' ∨ c = '/' ∨ c = '%' then
      .ok (some (Token.Operator (String.mk [c]), rest))
    else if isDigitChar c then
      .ok (some (Token.Number (String.mk ((c :: rest).takeWhile isDigitChar)),
                 (c :: rest).dropWhile isDigitChar))
    else .error ⟨"Unknow symbol", line, col⟩

/-- Length by which `Tokenizer::tokenize` advances the column counter for a
produced token (`src/tokenizer.rs` lines 66-70).  The source `match` covers
exactly the five variants the tokenizer constructs; the parser-only variants
are never produced by `nextToken` and get length 0. -/
def tokenLen : Token → Nat
  | Token.Space => 1
  | Token.LParent => 1
  | Token.RParent => 1
  | Token.Number n => n.length
  | Token.Operator op => op.length
  | _ => 0

/-- The `while let` loop of `Tokenizer::tokenize`: repeatedly take the next
token, advance the column by its length, and collect the tokens in order
(`next_token` returning `None` — here, the empty character list — ends the
loop with the collected tokens). -/
def tokenizeLoop (cs : List Char) (line col : Nat) :
    Except TokenizerError (List Token) :=
  match cs with
  | [] => .ok []
  | c :: rest0 =>
    match h : nextToken (c :: rest0) line col with
    | .error e => .error e
    | .ok none => .ok []
    | .ok (some (tok, rest)) =>
      match tokenizeLoop rest line (col + tokenLen tok) with
      | .error e => .error e
      | .ok toks => .ok (tok :: toks)
termination_by cs.length
decreasing_by
  rename_i rest0
  have key : ∀ tok2 rest2, nextToken (c :: rest0) line col = .ok (some (tok2, rest2)) →
      rest2.length < rest0.length + 1 := by
    intro tok2 rest2 hh
    simp only [nextToken] at hh
    by_cases h1 : c = ' '
    · rw [if_pos h1] at hh; cases hh; omega
    · rw [if_neg h1] at hh
      by_cases h2 : c = '('
      · rw [if_pos h2] at hh; cases hh; omega
      · rw [if_neg h2] at hh
        by_cases h3 : c = ')'
        · rw [if_pos h3] at hh; cases hh; omega
        · rw [if_neg h3] at hh
          by_cases h4 : c = '+' ∨ c = '-' ∨ c = '*' ∨ c = '/' ∨ c = '%'
          · rw [if_pos h4] at hh; cases hh; omega
          · rw [if_neg h4] at hh
            by_cases h5 : isDigitChar c = true
            · rw [if_pos h5] at hh
              cases hh
              rw [List.dropWhile_cons, if_pos h5]
              have hle :=
                (List.dropWhile_sublist (l := rest0) (p := isDigitChar)).length_le
              omega
            · rw [if_neg h5] at hh; exact absurd hh (by simp)
  simpa using key tok rest h

/-- `Tokenizer::new(text)` followed by `tokenize`: line and column counters
start at 1 (`src/tokenizer.rs` lines 52-75). -/
def tokenize (text : String) : Except TokenizerError (List Token) :=
  tokenizeLoop text.data 1 1

/-- `BinaryOperator` from `src/parser.rs`. -/
inductive BinaryOperator where
  | Plus : BinaryOperator
  | Minus : BinaryOperator
  | Mul : BinaryOperator
  | Div : BinaryOperator
deriving DecidableEq

/-- `UnaryOperator` from `src/parser.rs`. -/
inductive UnaryOperator where
  | Neg : UnaryOperator
deriving DecidableEq

/-- `Node` from `src/parser.rs`: the expression tree.  `i32` literals are
modelled as `Int` (see module comment). -/
inductive Node where
  | Number : Int → Node
  | BinaryExpr : BinaryOperator → Node → Node → Node
  | UnaryExpr : UnaryOperator → Node → Node
deriving DecidableEq

/-- Decimal value of a digit string, accumulated left to right. -/
def digitsVal (ds : List Char) : Nat :=
  ds.foldl (fun a c => 10 * a + (c.toNat - 48)) 0

/-- Model of Rust's `str::parse::<i32>()` as used by `parse_factor`:
an optional sign followed by one or more ASCII digits, rejected (`none`)
when empty, malformed, or out of the `i32` range. -/
def parseI32 (s : String) : Option Int :=
  match s.data with
  | [] => none
  | c :: tl =>
    if c = '+' then parseI32Digits false tl
    else if c = '-' then parseI32Digits true tl
    else parseI32Digits false (c :: tl)
where
  parseI32Digits (neg : Bool) (ds : List Char) : Option Int :=
    if ds = [] then none
    else if ds.all isDigitChar then
      let v : Int := if neg then -(digitsVal ds : Int) else (digitsVal ds : Int)
      if -(2 ^ 31) ≤ v ∧ v ≤ 2 ^ 31 - 1 then some v else none
    else none

/-- Rendering of a token by `impl Display for Token` in `src/tokenizer.rs`:
`Number` and `Operator` print their string, the parentheses print
themselves, and the `Space` arm is `todo!()` (modelled as `none`, a panic
when reached).  The parser-only variants have no arm in the source `match`
and are likewise `none`. -/
def tokenDisplay : Token → Option String
  | Token.Number n => some n
  | Token.Operator op => some op
  | Token.LParent => some "("
  | Token.RParent => some ")"
  | _ => none

/-- Result of one parser production over the token iterator: a node together
with the count of consumed tokens, a `ParserError` message, or a Rust panic
(`fault`).  `err m` models `Err(ParserError { message: m })`. -/
inductive PRes where
  | ok : Node → Nat → PRes
  | err : String → PRes
  | fault : PRes
deriving DecidableEq

mutual
/-- `Parser::parse_factor` (`src/parser.rs` lines 121-150): a factor is a
number literal (converted with `parse::<i32>().unwrap()`, which panics on an
out-of-range or malformed string), a unary minus applied to a factor, or a
parenthesized expression closed by `skip(RParen)` (whose failure message is
"unknow token", typo as in the source).  Any other token yields the
"unexpected token" error, whose message formats the token via `Display` —
a panic for tokens without a `Display` arm (`Token::Space`). -/
def parseFactor (ts : List Token) : PRes :=
  match ts with
  | [] => .err "expected factor"
  | tok :: rest =>
    match tok with
    | Token.Number n =>
      match parseI32 n with
      | some v => .ok (Node.Number v) 1
      | none => .fault
    | Token.Minus =>
      match parseFactor rest with
      | .ok f k => .ok (Node.UnaryExpr UnaryOperator.Neg f) (k + 1)
      | other => other
    | Token.LParen =>
      match parseExpr rest with
      | .ok e k =>
        match rest.drop k with
        | Token.RParen :: _ => .ok e (k + 2)
        | _ => .err "unknow token"
      | other => other
    | other =>
      match tokenDisplay other with
      | some s => .err ("unexpected token " ++ s)
      | none => .fault
termination_by 3 * ts.length
decreasing_by
  all_goals simp only [List.length_cons]
  all_goals omega

/-- `Parser::parse_term` (`src/parser.rs` lines 94-116): a factor, optionally
followed by `*` or `/` and a recursively parsed term (right-grouping). -/
def parseTerm (ts : List Token) : PRes :=
  match parseFactor ts with
  | .ok factor k =>
    match h : ts.drop k with
    | Token.Mul :: _ =>
      match parseTerm (ts.drop (k + 1)) with
      | .ok term k2 => .ok (Node.BinaryExpr BinaryOperator.Mul factor term) (k + 1 + k2)
      | other => other
    | Token.Div :: _ =>
      match parseTerm (ts.drop (k + 1)) with
      | .ok term k2 => .ok (Node.BinaryExpr BinaryOperator.Div factor term) (k + 1 + k2)
      | other => other
    | _ => .ok factor k
  | other => other
termination_by 3 * ts.length + 1
decreasing_by
  all_goals try simp only [List.length_drop]
  all_goals try omega
  all_goals
    have hlen := congrArg List.length h
  all_goals simp only [List.length_drop, List.length_cons] at hlen
  all_goals omega

/-- `Parser::parse_expr` (`src/parser.rs` lines 70-92): a term, optionally
followed by `+` or `-` and a recursively parsed expression
(right-grouping). -/
def parseExpr (ts : List Token) : PRes :=
  match parseTerm ts with
  | .ok term k =>
    match h : ts.drop k with
    | Token.Plus :: _ =>
      match parseExpr (ts.drop (k + 1)) with
      | .ok expr k2 => .ok (Node.BinaryExpr BinaryOperator.Plus term expr) (k + 1 + k2)
      | other => other
    | Token.Minus :: _ =>
      match parseExpr (ts.drop (k + 1)) with
      | .ok expr k2 => .ok (Node.BinaryExpr BinaryOperator.Minus term expr) (k + 1 + k2)
      | other => other
    | _ => .ok term k
  | other => other
termination_by 3 * ts.length + 2
decreasing_by
  all_goals try simp only [List.length_drop]
  all_goals try omega
  all_goals
    have hlen := congrArg List.length h
  all_goals simp only [List.length_drop, List.length_cons] at hlen
  all_goals omega
end

/-- Result of `Parser::parse`: the root node, a `ParserError` message, or a
panic. -/
inductive ParseOutcome where
  | ok : Node → ParseOutcome
  | err : String → ParseOutcome
  | fault : ParseOutcome
deriving DecidableEq

/-- `Parser::parse` (`src/parser.rs` lines 66-68): run `parse_expr` on the
token iterator and return its result.  The iterator — and with it any
unconsumed trailing tokens — is dropped without an end-of-input check. -/
def parse (ts : List Token) : ParseOutcome :=
  match parseExpr ts with
  | .ok node _ => .ok node
  | .err m => .err m
  | .fault => .fault

/-- `Eval::eval` (`src/eval.rs` lines 10-31): pure post-order walk.  `none`
models a Rust panic: integer division panics when the divisor is zero (the
source divides unchecked) and on `i32::MIN / -1`.  `+`, `-`, `*` and unary
negation are modelled exactly (see module comment on overflow). -/
def eval : Node → Option Int
  | Node.Number n => some n
  | Node.UnaryExpr op child =>
    match eval child with
    | some v =>
      match op with
      | UnaryOperator.Neg => some (-v)
    | none => none
  | Node.BinaryExpr op lhs rhs =>
    match eval lhs with
    | none => none
    | some leftResult =>
      match eval rhs with
      | none => none
      | some rightResult =>
        match op with
        | BinaryOperator.Plus => some (leftResult + rightResult)
        | BinaryOperator.Minus => some (leftResult - rightResult)
        | BinaryOperator.Mul => some (leftResult * rightResult)
        | BinaryOperator.Div =>
          if rightResult = 0 ∨ (leftResult = -(2 ^ 31) ∧ rightResult = -1) then none
          else some (Int.tdiv leftResult rightResult)

/-- Outcome of one line of the REPL loop in `src/main.rs`: the printed value,
the tokenizer error, the parser error, or a panic in parsing or
evaluation. -/
inductive RunResult where
  | value : Int → RunResult
  | lexError : TokenizerError → RunResult
  | parseError : String → RunResult
  | fault : RunResult
deriving DecidableEq

/-- The pipeline of `src/main.rs` for one input line: `tokenize`, on success
`parse`, on success `eval`; the first failure short-circuits. -/
def run (text : String) : RunResult :=
  match tokenize text with
  | .error e => .lexError e
  | .ok toks =>
    match parse toks with
    | .err m => .parseError m
    | .fault => .fault
    | .ok node =>
      match eval node with
      | none => .fault
      | some v => .value v

/-- Two invocations of the pipeline on the same line, as the REPL loop would
perform them on a repeated input. -/
def runTwice (text : String) : RunResult × RunResult :=
  (run text, run text)

/-- The source text a token stands for: the digit string of a `Number`, the
character of an `Operator`, the parentheses, and one space for a consumed
`Space`.  Parser-only variants are never produced by `tokenize` and render
as the empty string. -/
def sourceText : Token → String
  | Token.Space => " "
  | Token.Number n => n
  | Token.Operator op => op
  | Token.LParent => "("
  | Token.RParent => ")"
  | _ => ""

/-- Concatenation of the source texts of a token sequence, as characters. -/
def tokensData : List Token → List Char
  | [] => []
  | t :: ts => (sourceText t).data ++ tokensData ts

/-- A character the lexer consumes without error: space, parenthesis, one of
the five operator characters (including `%`), or a decimal digit. -/
def recognizedChar (c : Char) : Bool :=
  c = ' ' || c = '(' || c = ')' ||
    c = '+' || c = '-' || c = '*' || c = '/' || c = '%' || isDigitChar c

/-- Token list interleaving operands (number strings) with a fixed operator
token: `chainToks op s [t1, t2]` is the token form of `s op t1 op t2`. -/
def chainToks (opTok : Token) : String → List String → List Token
  | s, [] => [Token.Number s]
  | s, t :: rest => Token.Number s :: opTok :: chainToks opTok t rest

/-- Fully right-grouped tree over the same chain of operands. -/
def chainTree (op : BinaryOperator) : Int → List Int → Node
  | v, [] => Node.Number v
  | v, w :: rest => Node.BinaryExpr op (Node.Number v) (chainTree op w rest)

/-! ## Helper lemmas about the lexer -/

theorem takeWhile_append_stop {p : Char → Bool} {c : Char} (hc : p c = false) :
    ∀ (l r : List Char), (l ++ c :: r).takeWhile p = l.takeWhile p := by
  intro l r
  induction l with
  | nil => simp [List.takeWhile_cons, hc]
  | cons a l ih =>
    simp only [List.cons_append, List.takeWhile_cons, ih]

theorem dropWhile_append_stop {p : Char → Bool} {c : Char} (hc : p c = false) :
    ∀ (l r : List Char), (l ++ c :: r).dropWhile p = l.dropWhile p ++ c :: r := by
  intro l r
  induction l with
  | nil => simp [List.dropWhile_cons, hc]
  | cons a l ih =>
    simp only [List.cons_append, List.dropWhile_cons, ih]
    split <;> simp

theorem tokenizeLoop_nil (line col : Nat) : tokenizeLoop [] line col = .ok [] := by
  simp [tokenizeLoop]

/-- Exhaustive description of `nextToken` on a nonempty character list, one
disjunct per arm of the source `match` (plus the derived fact that the error
arm is reached exactly when the head character is not recognized). -/
theorem nextToken_cases (c : Char) (rest0 : List Char) (line col : Nat) :
    (c = ' ' ∧ nextToken (c :: rest0) line col = .ok (some (Token.Space, rest0))) ∨
    (c = '(' ∧ nextToken (c :: rest0) line col = .ok (some (Token.LParent, rest0))) ∨
    (c = ')' ∧ nextToken (c :: rest0) line col = .ok (some (Token.RParent, rest0))) ∨
    ((c = '+' ∨ c = '-' ∨ c = '*' ∨ c = '/' ∨ c = '%') ∧
      nextToken (c :: rest0) line col =
        .ok (some (Token.Operator (String.mk [c]), rest0))) ∨
    (isDigitChar c = true ∧
      nextToken (c :: rest0) line col =
        .ok (some (Token.Number (String.mk ((c :: rest0).takeWhile isDigitChar)),
          (c :: rest0).dropWhile isDigitChar))) ∨
    (recognizedChar c = false ∧
      nextToken (c :: rest0) line col = .error ⟨"Unknow symbol", line, col⟩) := by
  by_cases h1 : c = ' '
  · exact Or.inl ⟨h1, by simp [nextToken, h1]⟩
  by_cases h2 : c = '('
  · exact Or.inr (Or.inl ⟨h2, by simp [nextToken, h1, h2]⟩)
  by_cases h3 : c = ')'
  · exact Or.inr (Or.inr (Or.inl ⟨h3, by simp [nextToken, h1, h2, h3]⟩))
  by_cases h4 : c = '+' ∨ c = '-' ∨ c = '*' ∨ c = '/' ∨ c = '%'
  · exact Or.inr (Or.inr (Or.inr (Or.inl ⟨h4, by simp [nextToken, h1, h2, h3, h4]⟩)))
  by_cases h5 : isDigitChar c = true
  · exact Or.inr (Or.inr (Or.inr (Or.inr (Or.inl
      ⟨h5, by simp [nextToken, h1, h2, h3, h4, h5]⟩))))
  refine Or.inr (Or.inr (Or.inr (Or.inr (Or.inr ⟨?_, ?_⟩))))
  · simp only [not_or] at h4
    obtain ⟨ha, hb, hc', hd, he⟩ := h4
    simp [recognizedChar, h1, h2, h3, ha, hb, hc', hd, he, h5]
  · simp [nextToken, h1, h2, h3, h4, h5]

/-- One loop iteration of `tokenize`: successful `next_token`, successful
recursive run. -/
theorem tokenizeLoop_step_ok {c : Char} {rest0 rest : List Char} {tok : Token}
    {line col : Nat} {toks : List Token}
    (hnt : nextToken (c :: rest0) line col = .ok (some (tok, rest)))
    (hrec : tokenizeLoop rest line (col + tokenLen tok) = .ok toks) :
    tokenizeLoop (c :: rest0) line col = .ok (tok :: toks) := by
  unfold tokenizeLoop
  split <;> rename_i heq <;> rw [hnt] at heq <;> cases heq
  rw [hrec]

/-- One loop iteration of `tokenize`: successful `next_token`, failing
recursive run. -/
theorem tokenizeLoop_step_propagate {c : Char} {rest0 rest : List Char} {tok : Token}
    {line col : Nat} {e : TokenizerError}
    (hnt : nextToken (c :: rest0) line col = .ok (some (tok, rest)))
    (hrec : tokenizeLoop rest line (col + tokenLen tok) = .error e) :
    tokenizeLoop (c :: rest0) line col = .error e := by
  unfold tokenizeLoop
  split <;> rename_i heq <;> rw [hnt] at heq <;> cases heq
  rw [hrec]

/-- One loop iteration of `tokenize` when `next_token` fails. -/
theorem tokenizeLoop_stepErr {c : Char} {rest0 : List Char} {e : TokenizerError}
    {line col : Nat}
    (hnt : nextToken (c :: rest0) line col = .error e) :
    tokenizeLoop (c :: rest0) line col = .error e := by
  unfold tokenizeLoop
  split <;> rename_i heq <;> rw [hnt] at heq <;> cases heq
  rfl

/-- Inversion of a successful loop run on a nonempty input whose first token
is known. -/
theorem tokenizeLoop_ok_inversion {c : Char} {rest0 rest : List Char} {tok : Token}
    {line col : Nat} {toks : List Token}
    (hnt : nextToken (c :: rest0) line col = .ok (some (tok, rest)))
    (h : tokenizeLoop (c :: rest0) line col = .ok toks) :
    ∃ toks', tokenizeLoop rest line (col + tokenLen tok) = .ok toks' ∧
      toks = tok :: toks' := by
  cases hrec : tokenizeLoop rest line (col + tokenLen tok) with
  | error e => rw [tokenizeLoop_step_propagate hnt hrec] at h; cases h
  | ok toks' =>
    rw [tokenizeLoop_step_ok hnt hrec] at h
    cases h
    exact ⟨toks', rfl, rfl⟩

/-- Invariant of a successful lexer run: the consumed source text is exactly
the concatenation of the tokens' source texts, and one `Space` token was
produced per space character. -/
theorem tokenizeLoop_ok_inv :
    ∀ (N : Nat) (cs : List Char) (line col : Nat) (toks : List Token),
      cs.length ≤ N → tokenizeLoop cs line col = .ok toks →
      tokensData toks = cs ∧ toks.count Token.Space = cs.count ' ' := by
  intro N
  induction N with
  | zero =>
    intro cs line col toks hlen h
    have hnil : cs = [] := List.length_eq_zero.mp (Nat.le_zero.mp hlen)
    subst hnil
    rw [tokenizeLoop_nil] at h
    cases h
    simp [tokensData]
  | succ N ih =>
    intro cs line col toks hlen h
    cases cs with
    | nil =>
      rw [tokenizeLoop_nil] at h
      cases h
      simp [tokensData]
    | cons c rest0 =>
      simp only [List.length_cons, Nat.succ_le_succ_iff] at hlen
      rcases nextToken_cases c rest0 line col with
        ⟨hc, hnt⟩ | ⟨hc, hnt⟩ | ⟨hc, hnt⟩ | ⟨hc, hnt⟩ | ⟨hc, hnt⟩ | ⟨hc, hnt⟩
      · obtain ⟨toks', hrec, rfl⟩ := tokenizeLoop_ok_inversion hnt h
        obtain ⟨ih1, ih2⟩ := ih rest0 line _ toks' hlen hrec
        subst hc
        constructor
        · simp [tokensData, sourceText, ih1]
        · rw [List.count_cons_self, List.count_cons_self, ih2]
      · obtain ⟨toks', hrec, rfl⟩ := tokenizeLoop_ok_inversion hnt h
        obtain ⟨ih1, ih2⟩ := ih rest0 line _ toks' hlen hrec
        subst hc
        constructor
        · simp [tokensData, sourceText, ih1]
        · rw [List.count_cons_of_ne (by simp), List.count_cons_of_ne (by decide), ih2]
      · obtain ⟨toks', hrec, rfl⟩ := tokenizeLoop_ok_inversion hnt h
        obtain ⟨ih1, ih2⟩ := ih rest0 line _ toks' hlen hrec
        subst hc
        constructor
        · simp [tokensData, sourceText, ih1]
        · rw [List.count_cons_of_ne (by simp), List.count_cons_of_ne (by decide), ih2]
      · obtain ⟨toks', hrec, rfl⟩ := tokenizeLoop_ok_inversion hnt h
        obtain ⟨ih1, ih2⟩ := ih rest0 line _ toks' hlen hrec
        have hcs : (' ' : Char) ≠ c := by
          rcases hc with rfl | rfl | rfl | rfl | rfl <;> decide
        constructor
        · simp [tokensData, sourceText, ih1]
        · rw [List.count_cons_of_ne (by simp), List.count_cons_of_ne hcs, ih2]
      · have hdropLen : ((c :: rest0).dropWhile isDigitChar).length ≤ N := by
          rw [List.dropWhile_cons, if_pos hc]
          have := (List.dropWhile_sublist (l := rest0) (p := isDigitChar)).length_le
          omega
        obtain ⟨toks', hrec, rfl⟩ := tokenizeLoop_ok_inversion hnt h
        obtain ⟨ih1, ih2⟩ := ih _ line _ toks' hdropLen hrec
        have hsplitEq : (c :: rest0).takeWhile isDigitChar ++
            (c :: rest0).dropWhile isDigitChar = c :: rest0 :=
          List.takeWhile_append_dropWhile _ _
        constructor
        · simp only [tokensData, sourceText, ih1]
          exact hsplitEq
        · have hnospace : ((c :: rest0).takeWhile isDigitChar).count ' ' = 0 := by
            rw [List.count_eq_zero]
            intro hmem
            have := List.mem_takeWhile_imp hmem
            exact absurd this (by decide)
          have hsplit := congrArg (List.count ' ') hsplitEq
          rw [List.count_append, hnospace] at hsplit
          rw [List.count_cons_of_ne (by simp), ih2]
          omega
      · rw [tokenizeLoop_stepErr hnt] at h
        cases h

/-- Any character the lexer recognizes at the head of the input starts a
token that consumes at least that character, so a run over a fully
recognized prefix followed by an unrecognized character reaches that
character with the column advanced by exactly the prefix length, and errors
there. -/
theorem tokenizeLoop_firstBad :
    ∀ (N : Nat) (pre : List Char), pre.length ≤ N →
      (∀ a ∈ pre, recognizedChar a = true) →
      ∀ (bad : Char) (rest : List Char) (line col : Nat),
        recognizedChar bad = false →
        tokenizeLoop (pre ++ bad :: rest) line col =
          .error ⟨"Unknow symbol", line, col + pre.length⟩ := by
  intro N
  induction N with
  | zero =>
    intro pre hlen hall bad rest line col hbad
    have hnil : pre = [] := List.length_eq_zero.mp (Nat.le_zero.mp hlen)
    subst hnil
    rcases nextToken_cases bad rest line col with
      ⟨hc, -⟩ | ⟨hc, -⟩ | ⟨hc, -⟩ | ⟨hc, -⟩ | ⟨hc, -⟩ | ⟨-, hnt⟩
    · subst hc; exact absurd hbad (by decide)
    · subst hc; exact absurd hbad (by decide)
    · subst hc; exact absurd hbad (by decide)
    · rcases hc with rfl | rfl | rfl | rfl | rfl <;> exact absurd hbad (by decide)
    · exact absurd hbad (by simp [recognizedChar, hc])
    · simpa using tokenizeLoop_stepErr hnt
  | succ N ih =>
    intro pre hlen hall bad rest line col hbad
    cases pre with
    | nil =>
      rcases nextToken_cases bad rest line col with
        ⟨hc, -⟩ | ⟨hc, -⟩ | ⟨hc, -⟩ | ⟨hc, -⟩ | ⟨hc, -⟩ | ⟨-, hnt⟩
      · subst hc; exact absurd hbad (by decide)
      · subst hc; exact absurd hbad (by decide)
      · subst hc; exact absurd hbad (by decide)
      · rcases hc with rfl | rfl | rfl | rfl | rfl <;> exact absurd hbad (by decide)
      · exact absurd hbad (by simp [recognizedChar, hc])
      · simpa using tokenizeLoop_stepErr hnt
    | cons p pre' =>
      simp only [List.length_cons, Nat.succ_le_succ_iff] at hlen
      have hallp : ∀ a ∈ pre', recognizedChar a = true := by
        intro a ha; exact hall a (List.mem_cons_of_mem _ ha)
      simp only [List.cons_append]
      rcases nextToken_cases p (pre' ++ bad :: rest) line col with
        ⟨hc, hnt⟩ | ⟨hc, hnt⟩ | ⟨hc, hnt⟩ | ⟨hc, hnt⟩ | ⟨hc, hnt⟩ | ⟨hc, hnt⟩
      · have hrec := ih pre' hlen hallp bad rest line (col + 1) hbad
        have := tokenizeLoop_step_propagate hnt (by simpa [tokenLen] using hrec)
        simpa [Nat.add_assoc, Nat.add_comm, Nat.add_left_comm] using this
      · have hrec := ih pre' hlen hallp bad rest line (col + 1) hbad
        have := tokenizeLoop_step_propagate hnt (by simpa [tokenLen] using hrec)
        simpa [Nat.add_assoc, Nat.add_comm, Nat.add_left_comm] using this
      · have hrec := ih pre' hlen hallp bad rest line (col + 1) hbad
        have := tokenizeLoop_step_propagate hnt (by simpa [tokenLen] using hrec)
        simpa [Nat.add_assoc, Nat.add_comm, Nat.add_left_comm] using this
      · have hrec := ih pre' hlen hallp bad rest line (col + 1) hbad
        have := tokenizeLoop_step_propagate hnt (by simpa [tokenLen] using hrec)
        simpa [Nat.add_assoc, Nat.add_comm, Nat.add_left_comm] using this
      · -- digit run: the consumed run is a prefix of `p :: pre'` because the
        -- unrecognized character is not a digit
        have hbadNotDigit : isDigitChar bad = false := by
          rcases hd : isDigitChar bad with - | -
          · rfl
          · exact absurd hbad (by simp [recognizedChar, hd])
        have htake : (p :: (pre' ++ bad :: rest)).takeWhile isDigitChar =
            ((p :: pre') ++ bad :: rest).takeWhile isDigitChar := by rw [List.cons_append]
        have htake2 : ((p :: pre') ++ bad :: rest).takeWhile isDigitChar =
            (p :: pre').takeWhile isDigitChar := takeWhile_append_stop hbadNotDigit _ _
        have hdrop : (p :: (pre' ++ bad :: rest)).dropWhile isDigitChar =
            (p :: pre').dropWhile isDigitChar ++ bad :: rest := by
          rw [← List.cons_append]
          exact dropWhile_append_stop hbadNotDigit _ _
        have hdropRec : ∀ a ∈ (p :: pre').dropWhile isDigitChar, recognizedChar a = true := by
          intro a ha
          exact hall a ((List.dropWhile_sublist (l := p :: pre') (p := isDigitChar)).mem ha)
        have hdropLen : ((p :: pre').dropWhile isDigitChar).length ≤ N := by
          rw [List.dropWhile_cons, if_pos hc]
          have := (List.dropWhile_sublist (l := pre') (p := isDigitChar)).length_le
          omega
        have hlensum : ((p :: pre').takeWhile isDigitChar).length +
            ((p :: pre').dropWhile isDigitChar).length = pre'.length + 1 := by
          have h3 := congrArg List.length
            (List.takeWhile_append_dropWhile (p := isDigitChar) (l := p :: pre'))
          rw [List.length_append] at h3
          simp only [List.length_cons] at h3
          exact h3
        have hrec := ih ((p :: pre').dropWhile isDigitChar) hdropLen hdropRec bad rest line
          (col + ((p :: pre').takeWhile isDigitChar).length) hbad
        rw [htake, htake2, hdrop] at hnt
        have hfin := tokenizeLoop_step_propagate hnt
          (by simpa [tokenLen, String.length] using hrec)
        rw [hfin]
        have : col + ((p :: pre').takeWhile isDigitChar).length +
            ((p :: pre').dropWhile isDigitChar).length = col + (pre'.length + 1) := by omega
        simp [this]
      · -- the head of the prefix is recognized, contradiction
        exact absurd (hall p (List.mem_cons_self _ _)) (by simp [hc])

theorem takeWhile_all {p : Char → Bool} :
    ∀ {l : List Char}, (∀ c ∈ l, p c = true) →
      l.takeWhile p = l ∧ l.dropWhile p = [] := by
  intro l hall
  induction l with
  | nil => simp
  | cons a l ih =>
    have ha := hall a (List.mem_cons_self _ _)
    have hrest := ih (fun c hc => hall c (List.mem_cons_of_mem _ hc))
    simp [List.takeWhile_cons, List.dropWhile_cons, ha, hrest.1, hrest.2]

/-- A run of the lexer over spaces only: one `Space` token per character. -/
theorem tokenizeLoop_spaces :
    ∀ (m : Nat) (line col : Nat),
      tokenizeLoop (List.replicate m ' ') line col = .ok (List.replicate m Token.Space) := by
  intro m
  induction m with
  | zero => intro line col; simpa using tokenizeLoop_nil line col
  | succ m ih =>
    intro line col
    have hnt : nextToken (' ' :: List.replicate m ' ') line col =
        .ok (some (Token.Space, List.replicate m ' ')) := by simp [nextToken]
    have := tokenizeLoop_step_ok hnt (ih line (col + tokenLen Token.Space))
    simpa [List.replicate_succ] using this

/-- A run of the lexer over one digit run followed by spaces: one `Number`
token holding the digits verbatim, then one `Space` token per space. -/
theorem tokenizeLoop_digitRun {ds : List Char} (hne : ds ≠ [])
    (hall : ∀ c ∈ ds, isDigitChar c = true) (m : Nat) (line col : Nat) :
    tokenizeLoop (ds ++ List.replicate m ' ') line col =
      .ok (Token.Number (String.mk ds) :: List.replicate m Token.Space) := by
  cases ds with
  | nil => exact absurd rfl hne
  | cons d dtl =>
    have hd := hall d (List.mem_cons_self _ _)
    have htake : ((d :: dtl) ++ List.replicate m ' ').takeWhile isDigitChar = d :: dtl := by
      cases m with
      | zero => simpa using (takeWhile_all hall).1
      | succ m =>
        rw [List.replicate_succ, takeWhile_append_stop (by decide) _ _]
        exact (takeWhile_all hall).1
    have hdrop : ((d :: dtl) ++ List.replicate m ' ').dropWhile isDigitChar =
        List.replicate m ' ' := by
      cases m with
      | zero => simpa using (takeWhile_all hall).2
      | succ m =>
        rw [List.replicate_succ, dropWhile_append_stop (by decide) _ _,
          (takeWhile_all hall).2]
        simp [List.replicate_succ]
    rcases nextToken_cases d (dtl ++ List.replicate m ' ') line col with
      ⟨hc, -⟩ | ⟨hc, -⟩ | ⟨hc, -⟩ | ⟨hc, -⟩ | ⟨-, hnt⟩ | ⟨hc, -⟩
    · subst hc; exact absurd hd (by decide)
    · subst hc; exact absurd hd (by decide)
    · subst hc; exact absurd hd (by decide)
    · rcases hc with rfl | rfl | rfl | rfl | rfl <;> exact absurd hd (by decide)
    · rw [← List.cons_append] at hnt
      rw [htake, hdrop] at hnt
      exact tokenizeLoop_step_ok hnt (tokenizeLoop_spaces m line _)
    · exact absurd hc (by simp [recognizedChar, hd])

/-! ## Helper lemmas about the parser -/

/-- `str::parse::<i32>()` on a nonempty digit string within the `i32` range
returns its decimal value. -/
theorem parseI32_digitRun {ds : List Char} (hne : ds ≠ [])
    (hall : ∀ c ∈ ds, isDigitChar c = true)
    (hbound : (digitsVal ds : Int) ≤ 2 ^ 31 - 1) :
    parseI32 (String.mk ds) = some ((digitsVal ds : Int)) := by
  cases ds with
  | nil => exact absurd rfl hne
  | cons d dtl =>
    have hd := hall d (List.mem_cons_self _ _)
    have hplus : ¬ d = '+' := by intro h; rw [h] at hd; exact absurd hd (by decide)
    have hminus : ¬ d = '-' := by intro h; rw [h] at hd; exact absurd hd (by decide)
    rw [parseI32]
    show (if d = '+' then parseI32.parseI32Digits false dtl
      else if d = '-' then parseI32.parseI32Digits true dtl
      else parseI32.parseI32Digits false (d :: dtl)) = _
    rw [if_neg hplus, if_neg hminus, parseI32.parseI32Digits]
    rw [if_neg (by simp), if_pos (List.all_eq_true.mpr hall)]
    simp only [Bool.false_eq_true, if_false]
    rw [if_pos ⟨le_trans (by norm_num) (Int.natCast_nonneg _), hbound⟩]

theorem parseFactor_number {s : String} {v : Int} (hs : parseI32 s = some v)
    (l : List Token) :
    parseFactor (Token.Number s :: l) = .ok (Node.Number v) 1 := by
  simp [parseFactor, hs]

theorem parseTerm_number_spaces {s : String} {v : Int} (hs : parseI32 s = some v)
    (m : Nat) :
    parseTerm (Token.Number s :: List.replicate m Token.Space) = .ok (Node.Number v) 1 := by
  cases m with
  | zero => simp [parseTerm, parseFactor, hs]
  | succ m => simp [parseTerm, parseFactor, hs, List.replicate_succ]

theorem parseExpr_number_spaces {s : String} {v : Int} (hs : parseI32 s = some v)
    (m : Nat) :
    parseExpr (Token.Number s :: List.replicate m Token.Space) = .ok (Node.Number v) 1 := by
  cases m with
  | zero => simp [parseExpr, parseTerm, parseFactor, hs]
  | succ m => simp [parseExpr, parseTerm, parseFactor, hs, List.replicate_succ]

/-- The parser productions never consume more tokens than are available. -/
theorem parse_consumed_le :
    ∀ (N : Nat) (ts : List Token), ts.length ≤ N →
      (∀ n k, parseFactor ts = PRes.ok n k → k ≤ ts.length) ∧
      (∀ n k, parseTerm ts = PRes.ok n k → k ≤ ts.length) ∧
      (∀ n k, parseExpr ts = PRes.ok n k → k ≤ ts.length) := by
  intro N
  induction N with
  | zero =>
    intro ts hlen
    have hnil : ts = [] := List.length_eq_zero.mp (Nat.le_zero.mp hlen)
    subst hnil
    refine ⟨?_, ?_, ?_⟩ <;> intro n k h <;>
      simp [parseFactor, parseTerm, parseExpr] at h
  | succ N ih =>
    intro ts hlen
    have hfact : ∀ n k, parseFactor ts = PRes.ok n k → k ≤ ts.length := by
      intro n k h
      cases ts with
      | nil => simp [parseFactor] at h
      | cons tok rest =>
        simp only [List.length_cons, Nat.succ_le_succ_iff] at hlen
        cases tok
        case Number s =>
          cases hp : parseI32 s with
          | none => simp [parseFactor, hp] at h
          | some v =>
            simp [parseFactor, hp] at h
            obtain ⟨-, hk⟩ := h
            simp only [List.length_cons]
            omega
        case Minus =>
          cases hf : parseFactor rest with
          | err m => simp [parseFactor, hf] at h
          | fault => simp [parseFactor, hf] at h
          | ok f k2 =>
            simp [parseFactor, hf] at h
            obtain ⟨-, hk⟩ := h
            have hk2 := (ih rest hlen).1 f k2 hf
            simp only [List.length_cons]
            omega
        case LParen =>
          cases he : parseExpr rest with
          | err m => simp [parseFactor, he] at h
          | fault => simp [parseFactor, he] at h
          | ok e k2 =>
            cases hd : rest.drop k2 with
            | nil => simp [parseFactor, he, hd] at h
            | cons t tl =>
              have hlt : k2 < rest.length := by
                have hlen2 := congrArg List.length hd
                simp [List.length_drop] at hlen2
                omega
              cases t <;> simp [parseFactor, he, hd] at h
              obtain ⟨-, hk⟩ := h
              simp only [List.length_cons]
              omega
        all_goals simp [parseFactor, tokenDisplay] at h
    have hterm : ∀ n k, parseTerm ts = PRes.ok n k → k ≤ ts.length := by
      intro n k h
      rw [parseTerm] at h
      cases hf : parseFactor ts with
      | err m => simp only [hf] at h; cases h
      | fault => simp only [hf] at h; cases h
      | ok f k1 =>
        simp only [hf] at h
        have hk1 := hfact f k1 hf
        split at h
        · rename_i heq
          have hlt : k1 < ts.length := by
            have hlen2 := congrArg List.length heq
            simp [List.length_drop] at hlen2
            omega
          have hlenN : (ts.drop (k1 + 1)).length ≤ N := by
            simp only [List.length_drop]
            omega
          cases hrec : parseTerm (ts.drop (k1 + 1)) with
          | err m => simp only [hrec] at h; cases h
          | fault => simp only [hrec] at h; cases h
          | ok t2 k2 =>
            simp only [hrec] at h
            cases h
            have hk2 := (ih _ hlenN).2.1 t2 k2 hrec
            simp only [List.length_drop] at hk2
            omega
        · rename_i heq
          have hlt : k1 < ts.length := by
            have hlen2 := congrArg List.length heq
            simp [List.length_drop] at hlen2
            omega
          have hlenN : (ts.drop (k1 + 1)).length ≤ N := by
            simp only [List.length_drop]
            omega
          cases hrec : parseTerm (ts.drop (k1 + 1)) with
          | err m => simp only [hrec] at h; cases h
          | fault => simp only [hrec] at h; cases h
          | ok t2 k2 =>
            simp only [hrec] at h
            cases h
            have hk2 := (ih _ hlenN).2.1 t2 k2 hrec
            simp only [List.length_drop] at hk2
            omega
        · cases h
          omega
    have hexpr : ∀ n k, parseExpr ts = PRes.ok n k → k ≤ ts.length := by
      intro n k h
      rw [parseExpr] at h
      cases hf : parseTerm ts with
      | err m => simp only [hf] at h; cases h
      | fault => simp only [hf] at h; cases h
      | ok f k1 =>
        simp only [hf] at h
        have hk1 := hterm f k1 hf
        split at h
        · rename_i heq
          have hlt : k1 < ts.length := by
            have hlen2 := congrArg List.length heq
            simp [List.length_drop] at hlen2
            omega
          have hlenN : (ts.drop (k1 + 1)).length ≤ N := by
            simp only [List.length_drop]
            omega
          cases hrec : parseExpr (ts.drop (k1 + 1)) with
          | err m => simp only [hrec] at h; cases h
          | fault => simp only [hrec] at h; cases h
          | ok t2 k2 =>
            simp only [hrec] at h
            cases h
            have hk2 := (ih _ hlenN).2.2 t2 k2 hrec
            simp only [List.length_drop] at hk2
            omega
        · rename_i heq
          have hlt : k1 < ts.length := by
            have hlen2 := congrArg List.length heq
            simp [List.length_drop] at hlen2
            omega
          have hlenN : (ts.drop (k1 + 1)).length ≤ N := by
            simp only [List.length_drop]
            omega
          cases hrec : parseExpr (ts.drop (k1 + 1)) with
          | err m => simp only [hrec] at h; cases h
          | fault => simp only [hrec] at h; cases h
          | ok t2 k2 =>
            simp only [hrec] at h
            cases h
            have hk2 := (ih _ hlenN).2.2 t2 k2 hrec
            simp only [List.length_drop] at hk2
            omega
        · cases h
          omega
    exact ⟨hfact, hterm, hexpr⟩

theorem chainToks_length (opTok : Token) :
    ∀ (tail : List String) (s : String),
      (chainToks opTok s tail).length = 2 * tail.length + 1 := by
  intro tail
  induction tail with
  | nil => intro s; simp [chainToks]
  | cons t tail ih =>
    intro s
    simp [chainToks, ih t]
    omega

/-- `parse_expr` on a chain `s - t1 - t2 - ...` of number tokens joined by
binary-minus tokens: the whole chain is consumed and the tree is fully
right-grouped (the recursion descends into the remaining expression). -/
theorem parseExpr_minusChain :
    ∀ {tail : List String} {vals : List Int},
      List.Forall₂ (fun t w => parseI32 t = some w) tail vals →
      ∀ (s : String) (v : Int), parseI32 s = some v →
      parseExpr (chainToks Token.Minus s tail) =
        PRes.ok (chainTree BinaryOperator.Minus v vals) (2 * tail.length + 1) := by
  intro tail vals hall
  induction hall with
  | nil =>
    intro s v hs
    simpa [chainToks, chainTree] using parseExpr_number_spaces hs 0
  | cons hpair hrest ih =>
    rename_i t w tail' vals'
    intro s v hs
    have hterm : parseTerm (Token.Number s :: Token.Minus :: chainToks Token.Minus t tail') =
        .ok (Node.Number v) 1 := by
      rw [parseTerm]
      rw [parseFactor_number hs]
      rfl
    rw [show chainToks Token.Minus s (t :: tail') =
      Token.Number s :: Token.Minus :: chainToks Token.Minus t tail' from rfl]
    rw [parseExpr, hterm]
    simp only [List.drop_succ_cons, List.drop_zero]
    rw [ih t w hpair]
    simp only [chainTree, List.length_cons]
    congr 1
    omega

/-- `parse_term` on a chain of number tokens joined by `/` tokens:
right-grouped for the same reason. -/
theorem parseTerm_divChain :
    ∀ {tail : List String} {vals : List Int},
      List.Forall₂ (fun t w => parseI32 t = some w) tail vals →
      ∀ (s : String) (v : Int), parseI32 s = some v →
      parseTerm (chainToks Token.Div s tail) =
        PRes.ok (chainTree BinaryOperator.Div v vals) (2 * tail.length + 1) := by
  intro tail vals hall
  induction hall with
  | nil =>
    intro s v hs
    simpa [chainToks, chainTree] using parseTerm_number_spaces hs 0
  | cons hpair hrest ih =>
    rename_i t w tail' vals'
    intro s v hs
    rw [show chainToks Token.Div s (t :: tail') =
      Token.Number s :: Token.Div :: chainToks Token.Div t tail' from rfl]
    rw [parseTerm]
    rw [parseFactor_number hs]
    simp only [List.drop_succ_cons, List.drop_zero]
    rw [ih t w hpair]
    simp only [chainTree, List.length_cons]
    congr 1
    omega

/-- `parse_expr` on a `/`-chain: the term level consumes the whole chain and
the expression level finds no `+`/`-` afterwards. -/
theorem parseExpr_divChain :
    ∀ {tail : List String} {vals : List Int},
      List.Forall₂ (fun t w => parseI32 t = some w) tail vals →
      ∀ (s : String) (v : Int), parseI32 s = some v →
      parseExpr (chainToks Token.Div s tail) =
        PRes.ok (chainTree BinaryOperator.Div v vals) (2 * tail.length + 1) := by
  intro tail vals hall s v hs
  have hdrop : (chainToks Token.Div s tail).drop (2 * tail.length + 1) = [] := by
    rw [show (2 * tail.length + 1) = (chainToks Token.Div s tail).length from
      (chainToks_length _ _ _).symm]
    exact List.drop_length _
  rw [parseExpr, parseTerm_divChain hall s v hs]
  simp [hdrop]

/-! ## Claim theorems -/

/-- Claim C1, counterexample: on the tree `1 / 0` the evaluator does not
produce a recoverable error value — `eval` returns a bare `i32` and has no
error channel at all — instead Rust's integer division panics (the `none`
outcome of the model), so "fails with a recoverable EvalFault error value
[and] never crashes" is false. -/
theorem eval_div_by_zero_no_error_value :
    eval (Node.BinaryExpr BinaryOperator.Div (Node.Number 1) (Node.Number 0)) = none := rfl

/-- Claim C1, amended: for every tree whose right operand of a division
evaluates to 0, evaluation panics (Rust's division-by-zero panic, `none` in
the model); no integer — in particular neither 0 nor any other value — is
returned, and no recoverable error value exists because `eval` has no error
channel. -/
theorem eval_div_by_zero_panics :
    ∀ (l r : Node), eval r = some 0 →
      eval (Node.BinaryExpr BinaryOperator.Div l r) = none := by
  intro l r hr
  cases hl : eval l with
  | none => simp [eval, hl]
  | some v => simp [eval, hl, hr]

/-- Claim C1, witness: the hypotheses are satisfiable, at `1 / 0`. -/
theorem eval_div_by_zero_panics_witness :
    eval (Node.Number 0) = some 0 ∧
    eval (Node.BinaryExpr BinaryOperator.Div (Node.Number 1) (Node.Number 0)) = none :=
  ⟨rfl, eval_div_by_zero_panics (Node.Number 1) (Node.Number 0) rfl⟩

/-- Claim C2, counterexample: on the tokens of `"1 + 2 ("` the parser
succeeds with the node built from the one-token prefix `1` (the `Space`
token after it matches neither `Plus` nor `Minus`, ending the expression),
leaving six tokens unconsumed — no `SyntaxError` is produced, refuting "for
every sequence in which tokens remain unconsumed after a complete parse
subtree, parse returns a SyntaxError". -/
theorem parse_trailing_tokens_counterexample :
    tokenize "1 + 2 (" = Except.ok [Token.Number "1", Token.Space, Token.Operator "+",
      Token.Space, Token.Number "2", Token.Space, Token.LParent] ∧
    parse [Token.Number "1", Token.Space, Token.Operator "+", Token.Space,
      Token.Number "2", Token.Space, Token.LParent] = ParseOutcome.ok (Node.Number 1) := by
  constructor
  · simp [tokenize, tokenizeLoop, nextToken, tokenLen, isDigitChar]
  · simp [parse, parseExpr, parseTerm, parseFactor, parseI32,
      parseI32.parseI32Digits, digitsVal, isDigitChar]

/-- Claim C2, amended: `Parser::parse` returns whatever node `parse_expr`
builds from a leading prefix of the token sequence — it performs no
end-of-input check, so a successful parse may leave trailing tokens
unconsumed and silently ignored (`SyntaxError` arises only inside the
productions, never from trailing input). -/
theorem parse_succeeds_from_prefix :
    ∀ (ts : List Token) (n : Node), parse ts = ParseOutcome.ok n →
      ∃ k, parseExpr ts = PRes.ok n k ∧ k ≤ ts.length := by
  intro ts n h
  rw [parse] at h
  cases he : parseExpr ts with
  | err m => simp only [he] at h; cases h
  | fault => simp only [he] at h; cases h
  | ok nd k =>
    simp only [he] at h
    have hinj : nd = n := by simpa using h
    subst hinj
    exact ⟨k, rfl, (parse_consumed_le ts.length ts le_rfl).2.2 nd k he⟩

/-- Claim C2, witness: the hypothesis is satisfiable — on `[1, (]` the
parser succeeds from the strict prefix `1`. -/
theorem parse_succeeds_from_prefix_witness :
    ∃ k, parseExpr [Token.Number "1", Token.LParent] = PRes.ok (Node.Number 1) k ∧ k ≤ 2 := by
  have := parse_succeeds_from_prefix [Token.Number "1", Token.LParent] (Node.Number 1)
    (by simp [parse, parseExpr, parseTerm, parseFactor, parseI32,
      parseI32.parseI32Digits, digitsVal, isDigitChar])
  simpa using this

/-- Claim C3, counterexample: `tokenize " "` returns a `Space` token — the
`' '` arm of `next_token` constructs `Token::Space` and the loop pushes it —
refuting "the token sequence returned by tokenize contains no token
corresponding to a whitespace character". -/
theorem tokenize_space_token_counterexample :
    tokenize " " = Except.ok [Token.Space] := by
  simp [tokenize, tokenizeLoop, nextToken, tokenLen]

/-- Claim C3, amended: spaces are recognized but not discarded — `tokenize`
emits exactly one `Space` token per space character of the input (the
output consists of `Space`, `Number`, `Operator`, `LParent` and `RParent`
tokens in source order). -/
theorem tokenize_space_count :
    ∀ (text : String) (toks : List Token), tokenize text = .ok toks →
      toks.count Token.Space = text.data.count ' ' := by
  intro text toks h
  exact (tokenizeLoop_ok_inv text.data.length text.data 1 1 toks le_rfl h).2

/-- Claim C3, witness: the hypothesis is satisfiable, at `" 1"`. -/
theorem tokenize_space_count_witness :
    tokenize " 1" = Except.ok [Token.Space, Token.Number "1"] ∧
    [Token.Space, Token.Number "1"].count Token.Space = " 1".data.count ' ' := by
  constructor
  · simp [tokenize, tokenizeLoop, nextToken, tokenLen, isDigitChar]
  · exact tokenize_space_count " 1" [Token.Space, Token.Number "1"]
      (by simp [tokenize, tokenizeLoop, nextToken, tokenLen, isDigitChar])

/-- Claim C4, counterexample: `'%'` is not a lexical failure — the operator
arm of `next_token` matches `'+' | '-' | '*' | '/' | '%'`, so `tokenize "%"`
succeeds with an `Operator` token, refuting the claimed character set (the
repository's own test `tokenize_operator` expects exactly this). -/
theorem tokenize_percent_counterexample :
    tokenize "%" = Except.ok [Token.Operator "%"] := by
  simp [tokenize, tokenizeLoop, nextToken, tokenLen]

/-- Claim C4, amended: with `'%'` added to the recognized operator set, any
input containing a character outside spaces, digits, parentheses and
`+ - * / %` makes `tokenize` fail with a `TokenizerError` — no token
sequence is returned. -/
theorem tokenize_unrecognized_errors :
    ∀ (s : String), (∃ c ∈ s.data, recognizedChar c = false) →
      ∃ e, tokenize s = Except.error e := by
  intro s hex
  have hdne : s.data.dropWhile recognizedChar ≠ [] := by
    intro hnil
    obtain ⟨c, hc, hbad⟩ := hex
    rw [← List.takeWhile_append_dropWhile recognizedChar s.data, hnil,
      List.append_nil] at hc
    exact absurd (List.mem_takeWhile_imp hc) (by simp [hbad])
  obtain ⟨b, tl, hbt⟩ : ∃ b tl, s.data.dropWhile recognizedChar = b :: tl := by
    cases hdw : s.data.dropWhile recognizedChar with
    | nil => exact absurd hdw hdne
    | cons b tl => exact ⟨b, tl, rfl⟩
  have hbadb : recognizedChar b = false := by
    have hhead := List.head?_dropWhile_not recognizedChar s.data
    rw [hbt] at hhead
    simpa using hhead
  have hsplit : s.data = s.data.takeWhile recognizedChar ++ b :: tl := by
    have hx := List.takeWhile_append_dropWhile recognizedChar s.data
    rw [hbt] at hx
    exact hx.symm
  refine ⟨⟨"Unknow symbol", 1, 1 + (s.data.takeWhile recognizedChar).length⟩, ?_⟩
  show tokenizeLoop s.data 1 1 = _
  conv_lhs => rw [hsplit]
  exact tokenizeLoop_firstBad _ _ le_rfl (fun a ha => List.mem_takeWhile_imp ha) b tl 1 1 hbadb

/-- Claim C4, witness: the hypothesis is satisfiable, at `"@"`. -/
theorem tokenize_unrecognized_errors_witness :
    ∃ e, tokenize "@" = Except.error e :=
  tokenize_unrecognized_errors "@" ⟨'@', by decide, by decide⟩

/-- Claim C5: the full pipeline on `"1 + 2 * 3"` returns 1, not 7.  The
tokenizer emits `Space` and `Operator("+")` / `Operator("*")` tokens, while
the parser only consumes the `Plus` / `Mul` token variants — variants the
tokenizer never constructs — so `parse_expr` stops after the first number
and the pipeline evaluates just `1`.  The repository's own tests
(`parser::test::normal_prior`, `eval::test::normal_expr`) assert the
precedence tree and the value 7 for exactly this input, so the code
contradicts its own tests here (code bug). -/
theorem run_one_plus_two_times_three :
    run "1 + 2 * 3" = RunResult.value 1 := by
  simp [run, tokenize, tokenizeLoop, nextToken, tokenLen, isDigitChar, parse,
    parseExpr, parseTerm, parseFactor, parseI32, parseI32.parseI32Digits,
    digitsVal, eval]

/-- Claim C6, counterexample: on `" 1"` — a digit literal surrounded by a
space — the pipeline panics instead of returning 1: the `Space` token
reaches `parse_factor`, whose error message formats the token through
`Display`, and the `Space` arm of `Display` is `todo!()`. -/
theorem run_leading_space_counterexample :
    run " 1" = RunResult.fault := by
  simp [run, tokenize, tokenizeLoop, nextToken, tokenLen, isDigitChar, parse,
    parseExpr, parseTerm, parseFactor, parseI32, parseI32.parseI32Digits,
    digitsVal, tokenDisplay, eval]

/-- Claim C6, amended: for inputs consisting of exactly one run of digits —
not preceded by spaces (a leading space panics the parser), though trailing
spaces are tolerated because the parser ignores trailing tokens — whose
value fits in `i32`, the pipeline succeeds and returns exactly that
integer. -/
theorem run_digit_literal :
    ∀ (ds : List Char) (m : Nat), ds ≠ [] → (∀ c ∈ ds, isDigitChar c = true) →
      (digitsVal ds : Int) ≤ 2 ^ 31 - 1 →
      run (String.mk (ds ++ List.replicate m ' ')) =
        RunResult.value ((digitsVal ds : Int)) := by
  intro ds m hne hall hbound
  have htok : tokenize (String.mk (ds ++ List.replicate m ' ')) =
      .ok (Token.Number (String.mk ds) :: List.replicate m Token.Space) := by
    show tokenizeLoop (ds ++ List.replicate m ' ') 1 1 = _
    exact tokenizeLoop_digitRun hne hall m 1 1
  have hv := parseI32_digitRun hne hall hbound
  have hparse : parse (Token.Number (String.mk ds) :: List.replicate m Token.Space) =
      ParseOutcome.ok (Node.Number ((digitsVal ds : Int))) := by
    rw [parse, parseExpr_number_spaces hv m]
  rw [run]
  simp only [htok]
  simp only [hparse]
  simp [eval]

/-- Claim C6, witness: the hypotheses are satisfiable, at `"123 "`. -/
theorem run_digit_literal_witness :
    run "123 " = RunResult.value 123 := by
  have h2 : String.mk (['1', '2', '3'] ++ List.replicate 1 ' ') = "123 " := rfl
  have := run_digit_literal ['1', '2', '3'] 1 (by decide) (by decide) (by decide)
  rw [h2] at this
  simpa [digitsVal] using this

/-- Claim C7: chains of operands joined by same-precedence operator tokens
parse to fully right-grouped trees, for chains of any length: the `-`
chain at the additive level, the `/` chain at the multiplicative level, and
for three operands the resulting tree groups the second and third operands
first and differs from the left-grouped tree. -/
theorem parse_same_precedence_right_grouped :
    (∀ (s : String) (v : Int) (tail : List String) (vals : List Int),
      parseI32 s = some v →
      List.Forall₂ (fun t w => parseI32 t = some w) tail vals →
      parse (chainToks Token.Minus s tail) =
        ParseOutcome.ok (chainTree BinaryOperator.Minus v vals)) ∧
    (∀ (s : String) (v : Int) (tail : List String) (vals : List Int),
      parseI32 s = some v →
      List.Forall₂ (fun t w => parseI32 t = some w) tail vals →
      parse (chainToks Token.Div s tail) =
        ParseOutcome.ok (chainTree BinaryOperator.Div v vals)) ∧
    (∀ (op : BinaryOperator) (a b c : Int),
      chainTree op a [b, c] =
        Node.BinaryExpr op (Node.Number a)
          (Node.BinaryExpr op (Node.Number b) (Node.Number c)) ∧
      chainTree op a [b, c] ≠
        Node.BinaryExpr op (Node.BinaryExpr op (Node.Number a) (Node.Number b))
          (Node.Number c)) := by
  refine ⟨?_, ?_, ?_⟩
  · intro s v tail vals hs hall
    rw [parse, parseExpr_minusChain hall s v hs]
  · intro s v tail vals hs hall
    rw [parse, parseExpr_divChain hall s v hs]
  · intro op a b c
    exact ⟨rfl, by simp [chainTree]⟩

/-- Claim C7, witness: the hypotheses are satisfiable, at the token forms of
`8 - 4 - 2` and `8 / 4 / 2`. -/
theorem parse_same_precedence_right_grouped_witness :
    parse [Token.Number "8", Token.Minus, Token.Number "4", Token.Minus, Token.Number "2"] =
      ParseOutcome.ok (Node.BinaryExpr BinaryOperator.Minus (Node.Number 8)
        (Node.BinaryExpr BinaryOperator.Minus (Node.Number 4) (Node.Number 2))) ∧
    parse [Token.Number "8", Token.Div, Token.Number "4", Token.Div, Token.Number "2"] =
      ParseOutcome.ok (Node.BinaryExpr BinaryOperator.Div (Node.Number 8)
        (Node.BinaryExpr BinaryOperator.Div (Node.Number 4) (Node.Number 2))) := by
  have hfa : List.Forall₂ (fun t w => parseI32 t = some w) ["4", "2"] [(4 : Int), 2] := by
    refine List.Forall₂.cons ?_ (List.Forall₂.cons ?_ List.Forall₂.nil)
    · simp [parseI32, parseI32.parseI32Digits, digitsVal, isDigitChar]
    · simp [parseI32, parseI32.parseI32Digits, digitsVal, isDigitChar]
  have h8 : parseI32 "8" = some 8 := by
    simp [parseI32, parseI32.parseI32Digits, digitsVal, isDigitChar]
  constructor
  · have := parse_same_precedence_right_grouped.1 "8" 8 ["4", "2"] [4, 2] h8 hfa
    simpa [chainToks, chainTree] using this
  · have := (parse_same_precedence_right_grouped.2).1 "8" 8 ["4", "2"] [4, 2] h8 hfa
    simpa [chainToks, chainTree] using this

/-- Claim C8: on a single-line input whose first unrecognized character sits
at 1-based column `k` — every character before it part of a recognized
token or a space — `tokenize` fails with the error at line 1, column `k`
(the column counter starts at 1 and advances by each consumed token's
length; the line counter is never incremented). -/
theorem tokenize_error_position :
    ∀ (pre : List Char) (bad : Char) (rest : List Char),
      (∀ a ∈ pre, recognizedChar a = true) → recognizedChar bad = false →
      tokenize (String.mk (pre ++ bad :: rest)) =
        .error ⟨"Unknow symbol", 1, pre.length + 1⟩ := by
  intro pre bad rest hall hbad
  show tokenizeLoop (pre ++ bad :: rest) 1 1 = _
  have := tokenizeLoop_firstBad pre.length pre le_rfl hall bad rest 1 1 hbad
  simpa [Nat.add_comm] using this

/-- Claim C8, witness: the hypotheses are satisfiable — in `"1 @"` the `@`
sits at column 3 after a number token and a space. -/
theorem tokenize_error_position_witness :
    tokenize "1 @" = Except.error ⟨"Unknow symbol", 1, 3⟩ := by
  have := tokenize_error_position ['1', ' '] '@' [] (by decide) (by decide)
  simpa using this

/-- Claim C9: the pipeline is deterministic — each stage is a pure function
of the input text, state (the tokenizer's position counters, the parser's
iterator) is created afresh per invocation as in `main.rs`, so running the
same line twice yields identical outcomes. -/
theorem run_deterministic :
    ∀ (text : String), runTwice text = (run text, run text) ∧
      (runTwice text).1 = (runTwice text).2 :=
  fun _ => ⟨rfl, rfl⟩

/-- Claim C10: lexing is lossless — when `tokenize` succeeds, concatenating
the source text of the tokens in order (digit strings, operator characters,
parentheses, one space per consumed space) reconstructs the input exactly. -/
theorem tokenize_lossless :
    ∀ (text : String) (toks : List Token), tokenize text = .ok toks →
      String.mk (tokensData toks) = text := by
  intro text toks h
  have hinv := (tokenizeLoop_ok_inv text.data.length text.data 1 1 toks le_rfl h).1
  rw [hinv]

/-- Claim C10, witness: the hypothesis is satisfiable, at `"12 %("`. -/
theorem tokenize_lossless_witness :
    tokenize "12 %(" = Except.ok [Token.Number "12", Token.Space,
      Token.Operator "%", Token.LParent] ∧
    String.mk (tokensData [Token.Number "12", Token.Space,
      Token.Operator "%", Token.LParent]) = "12 %(" := by
  constructor
  · simp [tokenize, tokenizeLoop, nextToken, tokenLen, isDigitChar]
  · exact tokenize_lossless "12 %(" _
      (by simp [tokenize, tokenizeLoop, nextToken, tokenLen, isDigitChar])
